import Mathlib

/-!
Verification of the content-transformation pipeline of
`src/supernotes_to_obsidian/main.py` (`ObsidianImporter.process_supernote_content`)
and of the surrounding orchestration (`process_supernote_file`, `main`).

Strings are embedded as `List Char`.  Python's character classes (`\s`, `\w`,
`str.isupper`, …) are embedded in their ASCII fragment, which covers every
behaviour the specification speaks about.
-/

namespace Supernote

/-- Python's whitespace class: the characters matched by `\s`, by `str.split()`
with no argument and by `str.strip()` (ASCII fragment: space, tab, newline,
carriage return, vertical tab, form feed). -/
def isSpaceChar (c : Char) : Bool :=
  c == ' ' || c == '\t' || c == '\n' || c == '\r' || c == Char.ofNat 11 || c == Char.ofNat 12

/-- Python's `\w` word-character class (ASCII fragment: letters, digits, underscore). -/
def isWordChar (c : Char) : Bool :=
  c.isAlphanum || c == '_'

/-- Sentence-terminal punctuation of the line-42 regex `(?<=[.!?])`. -/
def isSentEnd (c : Char) : Bool :=
  c == '.' || c == '!' || c == '?'

/-- The `[A-Z]` class of the line-42 regex lookahead. -/
def isUpperAZ (c : Char) : Bool :=
  'A' ≤ c && c ≤ 'Z'

/-- Line 36, first half: `content.replace('\r\n', '\n')` — leftmost,
non-overlapping replacement of every occurrence. -/
def replaceCRLF : List Char → List Char
  | [] => []
  | [c] => [c]
  | c1 :: c2 :: rest =>
    if c1 = '\r' ∧ c2 = '\n' then '\n' :: replaceCRLF rest
    else c1 :: replaceCRLF (c2 :: rest)

/-- Line 36, second half: `.replace('\r', '\n')`. -/
def replaceCR (l : List Char) : List Char :=
  l.map (fun c => if c = '\r' then '\n' else c)

/-- Line 36: normalize line endings. -/
def normalizeLineEndings (l : List Char) : List Char :=
  replaceCR (replaceCRLF l)

/-- Effect of the line-39 substitution `re.sub(r'\n\s*\n\s*\n', '\n\n', ·)` on one
maximal whitespace run.  A (leftmost, greedy) match of the pattern inside such a
run exists iff the run holds at least three newlines; the match then starts at
the first newline of the run and extends through its last newline, and is
replaced by two newlines.  The whitespace before the first newline and after the
last newline survives unchanged. -/
def collapseRun (run : List Char) : List Char :=
  if 3 ≤ run.count '\n' then
    run.takeWhile (fun c => c != '\n') ++
      '\n' :: '\n' :: (run.reverse.takeWhile (fun c => c != '\n')).reverse
  else run

/-- One-pass scanner for line 39: accumulates the current maximal whitespace run
in `pending` and flushes it through `collapseRun` at each non-whitespace
character and at the end of the text. -/
def collapseAux (pending : List Char) : List Char → List Char
  | [] => collapseRun pending
  | c :: rest =>
    if isSpaceChar c then collapseAux (pending ++ [c]) rest
    else collapseRun pending ++ c :: collapseAux [] rest

/-- Line 39: `re.sub(r'\n\s*\n\s*\n', '\n\n', content)` — remove multiple
empty lines. -/
def collapseBlankLines (l : List Char) : List Char :=
  collapseAux [] l

/-- Lines 36–39: the Normalizer of the specification (line-ending unification
followed by blank-line collapsing). -/
def normalizer (l : List Char) : List Char :=
  collapseBlankLines (normalizeLineEndings l)

/-- One-pass scanner for the line-42 substitution
`re.sub(r'(?<=[.!?])\s+(?=[A-Z])', '\n\n', ·)`.
A match is a maximal whitespace run (`\s+` is greedy, and a shorter match would
put a whitespace character where the `[A-Z]` lookahead needs a capital) whose
preceding character in the original text is sentence-terminal punctuation and
whose following character is an ASCII capital.  `prev` is the character of the
original text just before the current position (`none` at the start), `pending`
the whitespace run accumulated so far. -/
def prevSentEnd : Option Char → Bool
  | some p => isSentEnd p
  | none => false

def sentAux (prev : Option Char) (pending : List Char) : List Char → List Char
  | [] => pending
  | c :: rest =>
    if isSpaceChar c then sentAux prev (pending ++ [c]) rest
    else
      (if pending ≠ [] ∧ prevSentEnd prev = true ∧ isUpperAZ c = true
        then ['\n', '\n'] else pending) ++ c :: sentAux (some c) [] rest

/-- Line 42: add proper line breaks after sentences. -/
def addSentenceBreaks (l : List Char) : List Char :=
  sentAux none [] l

/-- `content.split()` (line 47): Python's no-argument split — maximal runs of
non-whitespace characters, with all whitespace discarded.  `pending` is the
token accumulated so far. -/
def splitAux (pending : List Char) : List Char → List (List Char)
  | [] => if pending = [] then [] else [pending]
  | c :: rest =>
    if isSpaceChar c then
      (if pending = [] then [] else [pending]) ++ splitAux [] rest
    else splitAux (pending ++ [c]) rest

/-- Line 47: `words = content.split()`. -/
def pySplit (l : List Char) : List (List Char) :=
  splitAux [] l

/-- Line 51: `clean_word = re.sub(r'[^\w\s]', '', word)` — delete every
character that is neither a word character nor whitespace, wherever it occurs
in the token. -/
def cleanWord (w : List Char) : List Char :=
  w.filter (fun c => isWordChar c || isSpaceChar c)

/-- Line 45: the fixed stoplist `common_words`. -/
def commonWords : List (List Char) :=
  [['T','h','e'], ['A'], ['A','n'], ['T','h','i','s'], ['T','h','a','t'],
   ['T','h','e','s','e'], ['T','h','o','s','e'], ['I'], ['Y','o','u'],
   ['H','e'], ['S','h','e'], ['I','t'], ['W','e'], ['T','h','e','y']]

/-- Python's `str.isupper`: at least one cased character, and no cased
character lowercase (ASCII fragment: cased characters are letters). -/
def pyIsUpper (s : List Char) : Bool :=
  s.any (fun c => c.isAlpha) && s.all (fun c => !c.isLower)

/-- Lines 58–62: the five-part condition of the `if` guarding wikification, in
the source's order: `clean_word` truthy, `clean_word[0].isupper()`,
`clean_word not in common_words`, `not clean_word.isupper()`,
`len(clean_word) > 1`. -/
def shouldWikify (clean : List Char) : Bool :=
  match clean with
  | [] => false
  | c0 :: _ =>
    c0.isUpper && !(commonWords.contains clean) && !(pyIsUpper clean)
      && decide (1 < clean.length)

/-- Lines 49–66, one iteration: wikify a single token.
`punctuation = word[len(clean_word):]` and
`word = f"[[\x7bclean_word\x7d]]\x7bpunctuation\x7d"`. -/
def processWord (w : List Char) : List Char :=
  let clean := cleanWord w
  if shouldWikify clean then
    '[' :: '[' :: (clean ++ ']' :: ']' :: w.drop clean.length)
  else w

/-- `' '.join(processed_words)` (line 68). -/
def joinWords : List (List Char) → List Char
  | [] => []
  | [w] => w
  | w1 :: w2 :: ws => w1 ++ ' ' :: joinWords (w2 :: ws)

/-- `content.strip()` (line 70): remove leading and trailing whitespace. -/
def pyStrip (l : List Char) : List Char :=
  ((l.dropWhile isSpaceChar).reverse.dropWhile isSpaceChar).reverse

/-- Lines 33–70: the whole transformation pipeline
`ObsidianImporter.process_supernote_content`. -/
def process_supernote_content (content : List Char) : List Char :=
  pyStrip (joinWords ((pySplit (addSentenceBreaks (normalizer content))).map processWord))

/-- `process_supernote_content` on Lean strings. -/
def processStr (s : String) : String :=
  ⟨process_supernote_content s.data⟩

/-- The wikification condition exactly as the specification words it: the clean
word is non-empty, its first character is uppercase, it is not a member of the
stoplist, it is not entirely uppercase (in the sense of Python's
`str.isupper`, which the stoplist paraphrases), and it has more than one
character. -/
def wikifyCond (w : List Char) : Prop :=
  (∃ c0 t, cleanWord w = c0 :: t ∧ c0.isUpper = true) ∧
  cleanWord w ∉ commonWords ∧ pyIsUpper (cleanWord w) = false ∧
  1 < (cleanWord w).length

/-- Lines 49–66 with the two fallible operations made explicit: the character
access `clean_word[0]` (which raises `IndexError` on an empty string — here
`none`) and the slice `word[len(clean_word):]` (which never raises; Python
slices clamp).  Python's `and` short-circuits, so `clean_word[0]` is only
evaluated after the truthiness test `clean_word`. -/
def processWordChecked (w : List Char) : Option (List Char) :=
  let clean := cleanWord w
  if clean.isEmpty then some w
  else
    match clean[0]? with
    | none => none
    | some c0 =>
      if c0.isUpper && !(commonWords.contains clean) && !(pyIsUpper clean)
          && decide (1 < clean.length) then
        some ('[' :: '[' :: (clean ++ ']' :: ']' :: w.drop clean.length))
      else some w

/-- Apply a fallible token transformation to every token, failing if any
single application fails. -/
def mapOption (f : List Char → Option (List Char)) :
    List (List Char) → Option (List (List Char))
  | [] => some []
  | t :: ts =>
    match f t, mapOption f ts with
    | some r, some rs => some (r :: rs)
    | _, _ => none

/-- The whole pipeline with the fallible token operation made explicit: `none`
would signal a reachable `IndexError`. -/
def process_supernote_content_checked (content : List Char) : Option (List Char) :=
  (mapOption processWordChecked (pySplit (addSentenceBreaks (normalizer content)))).map
    (fun ws => pyStrip (joinWords ws))

/-! ### Orchestration (lines 72–146)

The I/O steps of one `process_supernote_file` call are embedded as an oracle
giving each fallible step's outcome; a Python exception is an `Except.error`
carrying its message. -/

/-- Outcomes of the fallible I/O steps performed while handling one export
file. -/
structure StepOracle where
  /-- `open(file_path).read()` (lines 114–115). -/
  readResult : Except String String
  /-- `get_file_contents(daily_note_path)` inside `ensure_daily_note_exists`
  (line 78); an error means the daily note does not exist yet. -/
  getNoteResult : Except String String
  /-- `self.template_content` (line 81). -/
  templateContent : Option String
  /-- `append_content` creating the note from the template (line 92). -/
  createNoteResult : Except String Unit
  /-- `patch_content` appending to the daily note (line 100). -/
  patchResult : Except String Unit
  /-- `os.rename` marking the file processed (line 127). -/
  renameResult : Except String Unit

/-- Lines 72–94: `ensure_daily_note_exists`.  A missing note is recovered by
creating it from the template; a missing template raises `ValueError`. -/
def ensure_daily_note_exists (o : StepOracle) : Except String Unit :=
  match o.getNoteResult with
  | .ok _ => .ok ()
  | .error _ =>
    match o.templateContent with
    | none => .error "Template not loaded"
    | some _ => o.createNoteResult

/-- Lines 96–108: `add_to_daily_note` catches its own errors and only logs
them (returns `true` when an error was logged); it never raises. -/
def add_to_daily_note (o : StepOracle) : Bool :=
  match o.patchResult with
  | .ok _ => false
  | .error _ => true

/-- Lines 112–127: the body of the `try` block of `process_supernote_file`:
read the export, transform it (pure, cannot fail), ensure the daily note,
append to it (cannot raise), rename the export. -/
def processFileBody (o : StepOracle) : Except String Unit := do
  let _content ← o.readResult
  let _ ← ensure_daily_note_exists o
  let _logged := add_to_daily_note o
  o.renameResult

/-- Result of handling one export file: either fully processed, or an error
was caught by the `except` clause (lines 129–130) and logged. -/
inductive FileOutcome where
  | processed : FileOutcome
  | loggedError : String → FileOutcome

/-- Lines 110–130: `process_supernote_file` — the whole body runs inside
`try`, and any error is caught and printed, never propagated. -/
def process_supernote_file (o : StepOracle) : FileOutcome :=
  match processFileBody o with
  | .ok _ => .processed
  | .error e => .loggedError e

/-- `config.VALID_EXTENSIONS`. -/
def VALID_EXTENSIONS : List String := [".txt"]

/-- `config.PROCESSED_SUFFIX`. -/
def PROCESSED_SUFFIX : String := ".processed"

/-- Python's `str.endswith`, on character lists. -/
def strEndsWith (s t : String) : Bool :=
  s.data.drop (s.data.length - t.data.length) == t.data

/-- Lines 141–142: the filename filter of the main loop
(`filename.endswith(config.VALID_EXTENSIONS)` tries each extension of the
tuple, `and not filename.endswith(config.PROCESSED_SUFFIX)`). -/
def eligibleFile (name : String) : Bool :=
  VALID_EXTENSIONS.any (fun ext => strEndsWith name ext)
    && !(strEndsWith name PROCESSED_SUFFIX)

/-- Lines 140–146: the main loop over the export folder, one oracle per
listed file. -/
def mainRun : List (String × StepOracle) → List (String × FileOutcome)
  | [] => []
  | f :: rest =>
    if eligibleFile f.1 then (f.1, process_supernote_file f.2) :: mainRun rest
    else mainRun rest

/-- An oracle whose very first step (reading the export file) fails. -/
def badReadOracle : StepOracle where
  readResult := .error "read failed"
  getNoteResult := .ok "note"
  templateContent := some "template"
  createNoteResult := .ok ()
  patchResult := .ok ()
  renameResult := .ok ()

/-- An oracle for which every step succeeds. -/
def goodOracle : StepOracle where
  readResult := .ok "content"
  getNoteResult := .ok "note"
  templateContent := some "template"
  createNoteResult := .ok ()
  patchResult := .ok ()
  renameResult := .ok ()

/-! ## Helper lemmas -/

theorem mem_of_mem_takeWhile {p : Char → Bool} {l : List Char} {c : Char}
    (h : c ∈ l.takeWhile p) : c ∈ l := by
  induction l with
  | nil => simp at h
  | cons a l ih =>
    rw [List.takeWhile_cons] at h
    by_cases hp : p a
    · simp [hp] at h
      rcases h with h | h
      · simp [h]
      · exact List.mem_cons_of_mem _ (ih h)
    · simp [hp] at h

theorem sat_of_mem_takeWhile {p : Char → Bool} {l : List Char} {c : Char}
    (h : c ∈ l.takeWhile p) : p c = true := by
  induction l with
  | nil => simp at h
  | cons a l ih =>
    rw [List.takeWhile_cons] at h
    by_cases hp : p a
    · simp [hp] at h
      rcases h with h | h
      · rwa [h]
      · exact ih h
    · simp [hp] at h

theorem mem_of_mem_dropWhile {p : Char → Bool} {l : List Char} {c : Char}
    (h : c ∈ l.dropWhile p) : c ∈ l := by
  induction l with
  | nil => simp at h
  | cons a l ih =>
    rw [List.dropWhile_cons] at h
    by_cases hp : p a
    · simp [hp] at h
      exact List.mem_cons_of_mem _ (ih h)
    · simp [hp] at h
      exact List.mem_cons.mpr h

theorem mem_pyStrip {l : List Char} {c : Char} (h : c ∈ pyStrip l) : c ∈ l := by
  unfold pyStrip at h
  rw [List.mem_reverse] at h
  have h2 := mem_of_mem_dropWhile h
  rw [List.mem_reverse] at h2
  exact mem_of_mem_dropWhile h2

theorem count_nl_takeWhile_ne (l : List Char) :
    (l.takeWhile (fun c => c != '\n')).count '\n' = 0 := by
  rw [List.count_eq_zero]
  intro h
  have h2 := sat_of_mem_takeWhile h
  simp at h2

theorem collapseRun_nil : collapseRun [] = [] := by decide

theorem count_collapseRun_le (R : List Char) : (collapseRun R).count '\n' ≤ 2 := by
  unfold collapseRun
  by_cases h : 3 ≤ R.count '\n'
  · rw [if_pos h]
    simp [List.count_append, List.count_cons, List.count_reverse, count_nl_takeWhile_ne]
  · rw [if_neg h]
    omega

theorem collapseRun_eq_self {R : List Char} (h : R.count '\n' ≤ 2) :
    collapseRun R = R := by
  unfold collapseRun
  rw [if_neg (by omega)]

theorem mem_collapseRun {R : List Char} {c : Char} (h : c ∈ collapseRun R) :
    c ∈ R ∨ c = '\n' := by
  unfold collapseRun at h
  by_cases h3 : 3 ≤ R.count '\n'
  · rw [if_pos h3] at h
    rcases List.mem_append.mp h with h | h
    · exact Or.inl (mem_of_mem_takeWhile h)
    · rcases List.mem_cons.mp h with h | h
      · exact Or.inr h
      rcases List.mem_cons.mp h with h | h
      · exact Or.inr h
      rw [List.mem_reverse] at h
      have h4 := mem_of_mem_takeWhile h
      rw [List.mem_reverse] at h4
      exact Or.inl h4
  · rw [if_neg h3] at h
    exact Or.inl h

theorem allSpace_collapseRun {R : List Char} (hR : ∀ c ∈ R, isSpaceChar c = true) :
    ∀ c ∈ collapseRun R, isSpaceChar c = true := by
  intro c hc
  rcases mem_collapseRun hc with h | h
  · exact hR c h
  · rw [h]; decide

theorem collapseAux_space_cons {a : Char} (ha : isSpaceChar a = true)
    (p l : List Char) : collapseAux p (a :: l) = collapseAux (p ++ [a]) l := by
  simp [collapseAux, ha]

theorem collapseAux_nonspace_cons {a : Char} (ha : isSpaceChar a = false)
    (p l : List Char) :
    collapseAux p (a :: l) = collapseRun p ++ a :: collapseAux [] l := by
  simp [collapseAux, ha]

theorem collapseAux_space_append {ws : List Char}
    (hws : ∀ c ∈ ws, isSpaceChar c = true) :
    ∀ p l, collapseAux p (ws ++ l) = collapseAux (p ++ ws) l := by
  induction ws with
  | nil => simp
  | cons w ws ih =>
    intro p l
    rw [List.cons_append, collapseAux_space_cons (hws w (by simp))]
    rw [ih (fun c hc => hws c (by simp [hc])) (p ++ [w]) l]
    simp

theorem collapseAux_space_only {ws : List Char}
    (hws : ∀ c ∈ ws, isSpaceChar c = true) :
    collapseAux [] ws = collapseRun ws := by
  have h := collapseAux_space_append hws [] []
  simpa using h

theorem mem_collapseAux {c : Char} :
    ∀ {l p : List Char}, c ∈ collapseAux p l → c ∈ p ∨ c ∈ l ∨ c = '\n' := by
  intro l
  induction l with
  | nil =>
    intro p h
    rcases mem_collapseRun h with h | h
    · exact Or.inl h
    · exact Or.inr (Or.inr h)
  | cons a l ih =>
    intro p h
    by_cases ha : isSpaceChar a
    · rw [collapseAux_space_cons ha] at h
      rcases ih h with h | h | h
      · rcases List.mem_append.mp h with h | h
        · exact Or.inl h
        · simp at h
          exact Or.inr (Or.inl (by simp [h]))
      · exact Or.inr (Or.inl (List.mem_cons_of_mem _ h))
      · exact Or.inr (Or.inr h)
    · rw [collapseAux_nonspace_cons (by simpa using ha)] at h
      rcases List.mem_append.mp h with h | h
      · rcases mem_collapseRun h with h | h
        · exact Or.inl h
        · exact Or.inr (Or.inr h)
      · rcases List.mem_cons.mp h with h | h
        · exact Or.inr (Or.inl (by simp [h]))
        · rcases ih h with h | h | h
          · simp at h
          · exact Or.inr (Or.inl (List.mem_cons_of_mem _ h))
          · exact Or.inr (Or.inr h)

theorem collapse_idem_aux :
    ∀ (l p : List Char), (∀ c ∈ p, isSpaceChar c = true) →
      collapseAux [] (collapseAux p l) = collapseAux p l := by
  intro l
  induction l with
  | nil =>
    intro p hp
    show collapseAux [] (collapseRun p) = collapseRun p
    rw [collapseAux_space_only (allSpace_collapseRun hp)]
    exact collapseRun_eq_self (count_collapseRun_le p)
  | cons a l ih =>
    intro p hp
    by_cases ha : isSpaceChar a
    · rw [collapseAux_space_cons ha]
      refine ih (p ++ [a]) ?_
      intro c hc
      rcases List.mem_append.mp hc with h | h
      · exact hp c h
      · simp at h; rw [h]; exact ha
    · have ha2 : isSpaceChar a = false := by simpa using ha
      rw [collapseAux_nonspace_cons ha2]
      have h1 := collapseAux_space_append (allSpace_collapseRun hp) []
        (a :: collapseAux [] l)
      rw [h1, List.nil_append, collapseAux_nonspace_cons ha2]
      rw [collapseRun_eq_self (count_collapseRun_le p), ih [] (by simp)]

theorem collapseBlankLines_idem (l : List Char) :
    collapseBlankLines (collapseBlankLines l) = collapseBlankLines l :=
  collapse_idem_aux l [] (by simp)

theorem replaceCRLF_eq_self : ∀ {l : List Char}, '\r' ∉ l → replaceCRLF l = l
  | [], _ => rfl
  | [_], _ => rfl
  | c1 :: c2 :: rest, h => by
    have h1 : c1 ≠ '\r' := fun e => h (by simp [e])
    have h2 : '\r' ∉ c2 :: rest := fun hm => h (List.mem_cons_of_mem _ hm)
    show (if c1 = '\r' ∧ c2 = '\n' then '\n' :: replaceCRLF rest
          else c1 :: replaceCRLF (c2 :: rest)) = c1 :: c2 :: rest
    rw [if_neg (fun hc => h1 hc.1)]
    rw [replaceCRLF_eq_self h2]

theorem not_mem_cr_replaceCR (l : List Char) : '\r' ∉ replaceCR l := by
  unfold replaceCR
  intro h
  rcases List.mem_map.mp h with ⟨a, _, ha⟩
  by_cases h2 : a = '\r'
  · rw [if_pos h2] at ha
    exact absurd ha (by decide)
  · rw [if_neg h2] at ha
    exact h2 ha

theorem replaceCR_eq_self {l : List Char} (h : '\r' ∉ l) : replaceCR l = l := by
  unfold replaceCR
  induction l with
  | nil => rfl
  | cons a l ih =>
    have ha : a ≠ '\r' := fun e => h (by simp [e])
    rw [List.map_cons, if_neg ha, ih (fun hm => h (List.mem_cons_of_mem _ hm))]

theorem normalizeLineEndings_no_cr (l : List Char) :
    '\r' ∉ normalizeLineEndings l :=
  not_mem_cr_replaceCR _

theorem normalizeLineEndings_eq_self {l : List Char} (h : '\r' ∉ l) :
    normalizeLineEndings l = l := by
  unfold normalizeLineEndings
  rw [replaceCRLF_eq_self h, replaceCR_eq_self h]

theorem no_cr_collapseBlankLines {l : List Char} (h : '\r' ∉ l) :
    '\r' ∉ collapseBlankLines l := by
  intro hm
  rcases mem_collapseAux hm with h2 | h2 | h2
  · simp at h2
  · exact h h2
  · exact absurd h2 (by decide)

/-! ## Claim theorems -/

/-- Claim C4: for the input `"Paris, France."` the pipeline returns
`"[[Paris]], [[France]]."` — a wrapped token's purely trailing punctuation is
kept outside the closing brackets. -/
theorem claim_C4_trailing_punctuation :
    processStr "Paris, France." = "[[Paris]], [[France]]." := by decide

/-- Claim C7: the Normalizer — line-ending unification (line 36) followed by
blank-line collapsing (line 39) — is idempotent: applying it twice yields the
same string as applying it once, for every input. -/
theorem claim_C7_normalizer_idempotent (l : List Char) :
    normalizer (normalizer l) = normalizer l := by
  unfold normalizer
  rw [normalizeLineEndings_eq_self
    (no_cr_collapseBlankLines (normalizeLineEndings_no_cr l))]
  exact collapseBlankLines_idem _

/-- Claim C1 concerns the sentence-resegmentation pass: the specification says
the output of the full pipeline contains a paragraph break between `"world."`
and `"Next"`.  The pass itself (line 42) does insert the break — second
conjunct — but the whitespace tokenization and single-space rejoin of
lines 47–68 then replaces it with one space, so the full pipeline's output
contains no newline at all (first and third conjuncts): the code defeats its
own "Add proper line breaks after sentences" step. -/
theorem claim_C1_join_destroys_breaks :
    processStr "Hello world. Next sentence here."
        = "[[Hello]] world. [[Next]] sentence here."
    ∧ addSentenceBreaks (normalizer ("Hello world. Next sentence here.".data))
        = ("Hello world.\n\nNext sentence here.".data)
    ∧ '\n' ∉ (processStr "Hello world. Next sentence here.").data := by
  refine ⟨by decide, by decide, by decide⟩

theorem collapseAux_nonspace_append {a : List Char}
    (ha : ∀ c ∈ a, isSpaceChar c = false) (m : List Char) :
    collapseAux [] (a ++ m) = a ++ collapseAux [] m := by
  induction a with
  | nil => simp
  | cons x xs ih =>
    have hx : isSpaceChar x = false := ha x (by simp)
    rw [List.cons_append, collapseAux_nonspace_cons hx, collapseRun_nil,
      List.nil_append, ih (fun c hc => ha c (by simp [hc])), List.cons_append]

theorem collapseRun_replicate {k : Nat} (hk : 3 ≤ k) :
    collapseRun (List.replicate k '\n') = ['\n', '\n'] := by
  obtain ⟨j, rfl⟩ : ∃ j, k = j + 1 := ⟨k - 1, by omega⟩
  unfold collapseRun
  rw [if_pos (by simpa using hk)]
  rw [List.reverse_replicate, List.replicate_succ, List.takeWhile_cons]
  simp

/-- Claim C6: the Normalizer collapses any run of three or more consecutive
newline-separated blank lines to exactly one blank line.  The first conjunct
is the specification's concrete case `"a\n\n\n\nb" ↦ "a\n\nb"`.  The second
conjunct is the general statement: a run of `k ≥ 3` newlines — already `k ≥ 3`
newlines, i.e. two or more blank lines, so in particular any three or more
blank lines — sitting between non-whitespace text `a` and a remainder `b`
that starts with a non-whitespace character collapses to exactly two newlines
(one blank line), while the collapsing continues independently in `b`. -/
theorem claim_C6_blank_collapse :
    normalizer ("a\n\n\n\nb".data) = "a\n\nb".data
    ∧ ∀ (k : Nat) (a b : List Char), 3 ≤ k →
        (∀ c ∈ a, isSpaceChar c = false) →
        '\r' ∉ b →
        (b = [] ∨ ∃ d b2, b = d :: b2 ∧ isSpaceChar d = false) →
        normalizer (a ++ List.replicate k '\n' ++ b)
          = a ++ '\n' :: '\n' :: collapseBlankLines b := by
  constructor
  · decide
  · intro k a b hk ha hbr hb
    have hnr : '\r' ∉ a ++ List.replicate k '\n' ++ b := by
      intro hm
      rcases List.mem_append.mp hm with hm | hm
      · rcases List.mem_append.mp hm with hm | hm
        · have := ha _ hm
          simp [isSpaceChar] at this
        · have := List.eq_of_mem_replicate hm
          exact absurd this (by decide)
      · exact hbr hm
    unfold normalizer
    rw [normalizeLineEndings_eq_self hnr]
    unfold collapseBlankLines
    rw [List.append_assoc, collapseAux_nonspace_append ha]
    have hws : ∀ c ∈ List.replicate k '\n', isSpaceChar c = true := by
      intro c hc
      rw [List.eq_of_mem_replicate hc]
      decide
    rw [collapseAux_space_append hws [] b, List.nil_append]
    rcases hb with rfl | ⟨d, b2, rfl, hd⟩
    · congr 1
      show collapseRun (List.replicate k '\n') = '\n' :: '\n' :: collapseAux [] []
      rw [collapseRun_replicate hk]
      simp [collapseAux, collapseRun_nil]
    · rw [collapseAux_nonspace_cons hd, collapseRun_replicate hk,
        collapseAux_nonspace_cons hd, collapseRun_nil]
      simp

theorem claim_C6_witness :
    normalizer (['a'] ++ List.replicate 4 '\n' ++ ['b'])
      = ['a'] ++ '\n' :: '\n' :: collapseBlankLines ['b'] :=
  claim_C6_blank_collapse.2 4 ['a'] ['b'] (by decide) (by decide) (by decide)
    (Or.inr ⟨'b', [], rfl, by decide⟩)

theorem token_chars_nonspace :
    ∀ {l p t : List Char} {c : Char},
      (∀ x ∈ p, isSpaceChar x = false) → t ∈ splitAux p l → c ∈ t →
      isSpaceChar c = false := by
  intro l
  induction l with
  | nil =>
    intro p t c hp ht hc
    simp only [splitAux] at ht
    by_cases hpe : p = []
    · simp [hpe] at ht
    · rw [if_neg hpe] at ht
      simp at ht
      exact hp c (ht ▸ hc)
  | cons a rest ih =>
    intro p t c hp ht hc
    by_cases ha : isSpaceChar a
    · rw [show splitAux p (a :: rest)
          = (if p = [] then [] else [p]) ++ splitAux [] rest from by
            simp [splitAux, ha]] at ht
      rcases List.mem_append.mp ht with h | h
      · by_cases hpe : p = []
        · simp [hpe] at h
        · rw [if_neg hpe] at h
          simp at h
          exact hp c (h ▸ hc)
      · exact ih (by simp) h hc
    · rw [show splitAux p (a :: rest) = splitAux (p ++ [a]) rest from by
        simp [splitAux, ha]] at ht
      refine ih ?_ ht hc
      intro x hx
      rcases List.mem_append.mp hx with h | h
      · exact hp x h
      · simp at h
        rw [h]
        simpa using ha

theorem token_chars_mem :
    ∀ {l p t : List Char} {c : Char},
      t ∈ splitAux p l → c ∈ t → c ∈ p ∨ c ∈ l := by
  intro l
  induction l with
  | nil =>
    intro p t c ht hc
    simp only [splitAux] at ht
    by_cases hpe : p = []
    · simp [hpe] at ht
    · rw [if_neg hpe] at ht
      simp at ht
      exact Or.inl (ht ▸ hc)
  | cons a rest ih =>
    intro p t c ht hc
    by_cases ha : isSpaceChar a
    · rw [show splitAux p (a :: rest)
          = (if p = [] then [] else [p]) ++ splitAux [] rest from by
            simp [splitAux, ha]] at ht
      rcases List.mem_append.mp ht with h | h
      · by_cases hpe : p = []
        · simp [hpe] at h
        · rw [if_neg hpe] at h
          simp at h
          exact Or.inl (h ▸ hc)
      · rcases ih h hc with h2 | h2
        · simp at h2
        · exact Or.inr (List.mem_cons_of_mem _ h2)
    · rw [show splitAux p (a :: rest) = splitAux (p ++ [a]) rest from by
        simp [splitAux, ha]] at ht
      rcases ih ht hc with h2 | h2
      · rcases List.mem_append.mp h2 with h3 | h3
        · exact Or.inl h3
        · simp at h3
          exact Or.inr (by simp [h3])
      · exact Or.inr (List.mem_cons_of_mem _ h2)

theorem mem_processWord {w : List Char} {c : Char} (h : c ∈ processWord w) :
    c ∈ w ∨ c = '[' ∨ c = ']' := by
  unfold processWord at h
  by_cases hs : shouldWikify (cleanWord w)
  · rw [if_pos hs] at h
    rcases List.mem_cons.mp h with h | h
    · exact Or.inr (Or.inl h)
    rcases List.mem_cons.mp h with h | h
    · exact Or.inr (Or.inl h)
    rcases List.mem_append.mp h with h | h
    · exact Or.inl (List.mem_filter.mp h).1
    rcases List.mem_cons.mp h with h | h
    · exact Or.inr (Or.inr h)
    rcases List.mem_cons.mp h with h | h
    · exact Or.inr (Or.inr h)
    · exact Or.inl (List.drop_subset _ _ h)
  · rw [if_neg hs] at h
    exact Or.inl h

theorem mem_joinWords :
    ∀ {ws : List (List Char)} {c : Char},
      c ∈ joinWords ws → c = ' ' ∨ ∃ t ∈ ws, c ∈ t
  | [], c, h => by simp [joinWords] at h
  | [w], c, h => Or.inr ⟨w, by simp, by simpa [joinWords] using h⟩
  | w1 :: w2 :: ws, c, h => by
    rw [show joinWords (w1 :: w2 :: ws) = w1 ++ ' ' :: joinWords (w2 :: ws)
      from rfl] at h
    rcases List.mem_append.mp h with h | h
    · exact Or.inr ⟨w1, by simp, h⟩
    · rcases List.mem_cons.mp h with h | h
      · exact Or.inl h
      · rcases mem_joinWords h with h | ⟨t, ht, hc⟩
        · exact Or.inl h
        · exact Or.inr ⟨t, List.mem_cons_of_mem _ ht, hc⟩

theorem mem_sentAux :
    ∀ {l : List Char} {prev : Option Char} {p : List Char} {c : Char},
      c ∈ sentAux prev p l → c ∈ p ∨ c ∈ l ∨ c = '\n' := by
  intro l
  induction l with
  | nil =>
    intro prev p c h
    exact Or.inl h
  | cons a rest ih =>
    intro prev p c h
    by_cases ha : isSpaceChar a
    · rw [show sentAux prev p (a :: rest) = sentAux prev (p ++ [a]) rest from by
        simp [sentAux, ha]] at h
      rcases ih h with h2 | h2 | h2
      · rcases List.mem_append.mp h2 with h3 | h3
        · exact Or.inl h3
        · simp at h3
          exact Or.inr (Or.inl (by simp [h3]))
      · exact Or.inr (Or.inl (List.mem_cons_of_mem _ h2))
      · exact Or.inr (Or.inr h2)
    · rw [show sentAux prev p (a :: rest)
          = (if p ≠ [] ∧ prevSentEnd prev = true ∧ isUpperAZ a = true
             then ['\n', '\n'] else p) ++ a :: sentAux (some a) [] rest from by
        simp [sentAux, ha]] at h
      rcases List.mem_append.mp h with h2 | h2
      · by_cases hcnd : p ≠ [] ∧ prevSentEnd prev = true ∧ isUpperAZ a = true
        · rw [if_pos hcnd] at h2
          simp at h2
          exact Or.inr (Or.inr h2)
        · rw [if_neg hcnd] at h2
          exact Or.inl h2
      · rcases List.mem_cons.mp h2 with h3 | h3
        · exact Or.inr (Or.inl (by simp [h3]))
        · rcases ih h3 with h4 | h4 | h4
          · simp at h4
          · exact Or.inr (Or.inl (List.mem_cons_of_mem _ h4))
          · exact Or.inr (Or.inr h4)

/-- Claim C2: for every input, the string returned by
`process_supernote_content` contains no newline character at all — the
whitespace tokenization of line 47 and the single-space rejoin of line 68
replace every whitespace run, including the paragraph breaks inserted at
lines 39 and 42, with one space. -/
theorem claim_C2_no_newline (content : List Char) :
    '\n' ∉ process_supernote_content content := by
  intro h
  unfold process_supernote_content at h
  have h1 := mem_pyStrip h
  rcases mem_joinWords h1 with h2 | ⟨t, ht, hc⟩
  · exact absurd h2 (by decide)
  · rcases List.mem_map.mp ht with ⟨t0, ht0, rfl⟩
    rcases mem_processWord hc with h3 | h3 | h3
    · have h4 := token_chars_nonspace (p := []) (by simp) ht0 h3
      exact absurd h4 (by decide)
    · exact absurd h3 (by decide)
    · exact absurd h3 (by decide)

/-- Claim C8: for every input — in particular any containing CRLF or a bare
CR — the output of `process_supernote_content` contains no carriage-return
character: line 36 replaces every CR, and no later pass reintroduces one. -/
theorem claim_C8_no_carriage_return (content : List Char) :
    '\r' ∉ process_supernote_content content := by
  intro h
  unfold process_supernote_content at h
  have h1 := mem_pyStrip h
  rcases mem_joinWords h1 with h2 | ⟨t, ht, hc⟩
  · exact absurd h2 (by decide)
  · rcases List.mem_map.mp ht with ⟨t0, ht0, rfl⟩
    rcases mem_processWord hc with h3 | h3 | h3
    · rcases token_chars_mem ht0 h3 with h4 | h4
      · simp at h4
      · rcases mem_sentAux h4 with h5 | h5 | h5
        · simp at h5
        · exact no_cr_collapseBlankLines (normalizeLineEndings_no_cr content) h5
        · exact absurd h5 (by decide)
    · exact absurd h3 (by decide)
    · exact absurd h3 (by decide)

theorem shouldWikify_iff (clean : List Char) :
    shouldWikify clean = true ↔
      ((∃ c0 t, clean = c0 :: t ∧ c0.isUpper = true) ∧ clean ∉ commonWords ∧
        pyIsUpper clean = false ∧ 1 < clean.length) := by
  cases clean with
  | nil => simp [shouldWikify]
  | cons c0 t =>
    simp only [shouldWikify, Bool.and_eq_true, Bool.not_eq_true',
      decide_eq_true_eq, List.contains, List.elem_eq_mem, decide_eq_false_iff_not]
    constructor
    · rintro ⟨⟨⟨h1, h2⟩, h3⟩, h4⟩
      exact ⟨⟨c0, t, rfl, h1⟩, h2, h3, h4⟩
    · rintro ⟨⟨c0x, tx, he, h1⟩, h2, h3, h4⟩
      injection he with e1 e2
      subst e1
      exact ⟨⟨⟨h1, h2⟩, h3⟩, h4⟩

/-- Claim C3: in the proper-noun-linking pass a token is wrapped in note-link
brackets if and only if its clean word is non-empty, its first character is
uppercase, it is not in the exact stoplist, it is not entirely uppercase and
it has more than one character (`wikifyCond`); wrapping keeps the remainder
of the token after the clean word's length outside the brackets.  And the
pipeline maps `"The Quick Brown fox jumps."` to
`"The [[Quick]] [[Brown]] fox jumps."`. -/
theorem claim_C3_wikify_iff :
    (∀ w : List Char,
      (wikifyCond w → processWord w
          = '[' :: '[' :: (cleanWord w ++ ']' :: ']' :: w.drop (cleanWord w).length))
      ∧ (¬ wikifyCond w → processWord w = w))
    ∧ processStr "The Quick Brown fox jumps."
        = "The [[Quick]] [[Brown]] fox jumps." := by
  constructor
  · intro w
    constructor
    · intro hc
      simp only [processWord]
      rw [if_pos ((shouldWikify_iff (cleanWord w)).mpr hc)]
    · intro hc
      simp only [processWord]
      rw [if_neg (fun hs => hc ((shouldWikify_iff (cleanWord w)).mp hs))]
  · decide

theorem claim_C3_witness :
    processWord ['Q', 'u', 'i', 'c', 'k']
      = '[' :: '[' :: (cleanWord ['Q', 'u', 'i', 'c', 'k']
          ++ ']' :: ']' :: (['Q', 'u', 'i', 'c', 'k']).drop
            (cleanWord ['Q', 'u', 'i', 'c', 'k']).length) :=
  (claim_C3_wikify_iff.1 ['Q', 'u', 'i', 'c', 'k']).1
    ⟨⟨'Q', ['u', 'i', 'c', 'k'], by decide, by decide⟩, by decide, by decide,
      by decide⟩

/-- Claim C5: the clean word deletes every non-word, non-whitespace character
anywhere in the token, and the appended "punctuation" is the token's suffix
starting at index `len(clean_word)`.  For a token that is word characters
followed by pure punctuation, the appendix is exactly that punctuation
(first conjunct); for a token with interior punctuation, such as O'Brien, the
appendix is the token's final characters — letters, not its punctuation
(second and third conjuncts: the clean word is `OBrien` and the processed token
is `[[OBrien]]n`). -/
theorem claim_C5_clean_word :
    (∀ wcore p : List Char,
      (∀ c ∈ wcore, isWordChar c = true) →
      (∀ c ∈ p, isWordChar c = false ∧ isSpaceChar c = false) →
      cleanWord (wcore ++ p) = wcore
        ∧ (wcore ++ p).drop (cleanWord (wcore ++ p)).length = p)
    ∧ cleanWord ('O' :: Char.ofNat 39 :: 'B' :: 'r' :: 'i' :: 'e' :: 'n' :: [])
        = "OBrien".data
    ∧ processWord ('O' :: Char.ofNat 39 :: 'B' :: 'r' :: 'i' :: 'e' :: 'n' :: [])
        = "[[OBrien]]n".data := by
  refine ⟨?_, by decide, by decide⟩
  intro wcore p hw hp
  have hclean : cleanWord (wcore ++ p) = wcore := by
    unfold cleanWord
    rw [List.filter_append]
    rw [List.filter_eq_self.mpr ?side1, List.filter_eq_nil_iff.mpr ?side2,
      List.append_nil]
    case side1 =>
      intro a ha
      simp [hw a ha]
    case side2 =>
      intro a ha
      simp [(hp a ha).1, (hp a ha).2]
  refine ⟨hclean, ?_⟩
  rw [hclean, List.drop_left]

theorem claim_C5_witness :
    cleanWord ("Paris".data ++ [',']) = "Paris".data
      ∧ ("Paris".data ++ [',']).drop
          (cleanWord ("Paris".data ++ [','])).length = [','] :=
  claim_C5_clean_word.1 "Paris".data [','] (by decide) (by decide)

theorem processWordChecked_eq (w : List Char) :
    processWordChecked w = some (processWord w) := by
  simp only [processWordChecked, processWord]
  cases h : cleanWord w with
  | nil => rfl
  | cons c0 t =>
    simp only [List.isEmpty_cons, Bool.false_eq_true, if_false,
      List.getElem?_cons_zero, shouldWikify]
    by_cases hB : (c0.isUpper && !(commonWords.contains (c0 :: t))
        && !(pyIsUpper (c0 :: t)) && decide (1 < (c0 :: t).length)) = true
    · rw [if_pos hB, if_pos hB]
    · rw [if_neg hB, if_neg hB]

theorem mapOption_processWordChecked (ts : List (List Char)) :
    mapOption processWordChecked ts = some (ts.map processWord) := by
  induction ts with
  | nil => rfl
  | cons t ts ih => simp [mapOption, processWordChecked_eq, ih]

/-- Claim C9: `process_supernote_content` is a total function over strings:
with the two fallible token operations made explicit (the `clean_word[0]`
index, the `word[len(clean_word):]` slice), the checked pipeline never hits
an error branch and agrees with the unchecked embedding on every input; and
the slice start `len(clean_word)` is always within bounds because the clean
word is obtained by deleting characters from the token. -/
theorem claim_C9_total :
    (∀ content : List Char,
      process_supernote_content_checked content
        = some (process_supernote_content content))
    ∧ (∀ w : List Char, (cleanWord w).length ≤ w.length) := by
  constructor
  · intro content
    unfold process_supernote_content_checked process_supernote_content
    rw [mapOption_processWordChecked]
    rfl
  · intro w
    exact List.length_filter_le _ _

/-- Claim C10: an error in any step of handling a single export file — read,
daily-note creation, append, rename — is caught inside
`process_supernote_file` and turned into a logged report instead of
propagating (first conjunct), and the main loop handles every eligible file
independently of the others' outcomes, so one file's failure never aborts
the run (second conjunct). -/
theorem claim_C10_errors_nonfatal :
    (∀ (o : StepOracle) (e : String),
      processFileBody o = Except.error e →
        process_supernote_file o = FileOutcome.loggedError e)
    ∧ (∀ files : List (String × StepOracle),
      mainRun files
        = (files.filter (fun f => eligibleFile f.1)).map
            (fun f => (f.1, process_supernote_file f.2))) := by
  constructor
  · intro o e h
    unfold process_supernote_file
    rw [h]
  · intro files
    induction files with
    | nil => rfl
    | cons f rest ih =>
      by_cases hf : eligibleFile f.1
      · simp [mainRun, hf, ih]
      · simp [mainRun, hf, ih]

theorem claim_C10_witness :
    process_supernote_file badReadOracle = FileOutcome.loggedError "read failed"
      ∧ mainRun [("a.txt", badReadOracle), ("skip.processed", goodOracle),
          ("b.txt", goodOracle)]
        = [("a.txt", FileOutcome.loggedError "read failed"),
           ("b.txt", FileOutcome.processed)] := by
  constructor
  · exact claim_C10_errors_nonfatal.1 badReadOracle "read failed" rfl
  · rw [claim_C10_errors_nonfatal.2]
    rfl

end Supernote
